import Mathlib

/-!
# CRC-16 engine of `lab_4_pa.cpp`

A shallow embedding of the CRC-16 computation core: the two bit-reversal
helpers, the constructor of `CRC16Calculator` that fills the direct and the
reflected lookup table, and the five checksum methods.

Machine integers are natural numbers.  Every assignment to a `uint16_t`
variable is followed by `u16` (reduction modulo `2^16`) and every assignment to
a `uint8_t` variable by `u8` (reduction modulo `2^8`); the intermediate
expressions are computed without truncation, as C++ computes them in `int`
after integer promotion (no intermediate value reaches `2^31`).  A byte of the
input buffer is a natural number below 256.  `vector::operator[]` is modelled
by the partial lookup `List.get?`, so the table-driven methods return an
`Option`.

The methods are given twice: as functions of the engine and the buffer, and, for
the properties about the engine's state across calls, in state-passing form
(`Call`), where a method body receives the engine and returns the engine it
leaves behind; the two forms are proved to return the same values.
-/

namespace Crc16

/-! ## Constants and fixed-width truncation -/

/-- `const uint16_t POLYNOMIAL = 0x8005;` -/
def POLYNOMIAL : Nat := 0x8005

/-- `const uint16_t REV_POLYNOMIAL = 0xA001;` -/
def REV_POLYNOMIAL : Nat := 0xA001

/-- Conversion to `uint8_t`. -/
def u8 (x : Nat) : Nat := x % 256

/-- Conversion to `uint16_t`. -/
def u16 (x : Nat) : Nat := x % 65536

/-! ## Bit-reversal helpers -/

/-- `uint8_t reverseByte(uint8_t b)`: three swap rounds (nibbles, bit pairs,
single bits), each assigned back to the `uint8_t` variable `b`. -/
def reverseByte (b : Nat) : Nat :=
  let b := u8 (((b &&& 0xF0) >>> 4) ||| ((b &&& 0x0F) <<< 4))
  let b := u8 (((b &&& 0xCC) >>> 2) ||| ((b &&& 0x33) <<< 2))
  let b := u8 (((b &&& 0xAA) >>> 1) ||| ((b &&& 0x55) <<< 1))
  b

/-- `uint16_t reverse16(uint16_t w)`. -/
def reverse16 (w : Nat) : Nat :=
  let low := reverseByte (u8 (w &&& 0xFF))
  let high := reverseByte (u8 ((w >>> 8) &&& 0xFF))
  u16 ((low <<< 8) ||| high)

/-! ## The two 8-step bit loops -/

/-- Body of the direct bit loop:
`if (crc & 0x8000) crc = (crc << 1) ^ POLYNOMIAL; else crc = crc << 1;` -/
def directStep (crc : Nat) : Nat :=
  if crc &&& 0x8000 ≠ 0 then u16 ((crc <<< 1) ^^^ POLYNOMIAL) else u16 (crc <<< 1)

/-- Body of the reflected bit loop:
`if (crc & 1) crc = (crc >> 1) ^ REV_POLYNOMIAL; else crc = crc >> 1;` -/
def mirrorStep (crc : Nat) : Nat :=
  if crc &&& 1 ≠ 0 then u16 ((crc >>> 1) ^^^ REV_POLYNOMIAL) else u16 (crc >>> 1)

/-- The loop `for (int j = 0; j < n; j++) crc = directStep(crc);`. -/
def directLoop : Nat → Nat → Nat
  | 0, crc => crc
  | n + 1, crc => directLoop n (directStep crc)

/-- The loop `for (int j = 0; j < n; j++) crc = mirrorStep(crc);`. -/
def mirrorLoop : Nat → Nat → Nat
  | 0, crc => crc
  | n + 1, crc => mirrorLoop n (mirrorStep crc)

/-! ## The engine and its constructor -/

/-- The private members `table` and `revTable` of `class CRC16Calculator`. -/
structure CRC16Calculator where
  table : List Nat
  revTable : List Nat
deriving DecidableEq, Repr

/-- One iteration of the first constructor loop: `uint16_t crc = i << 8;`, the
8-step direct loop, `table.push_back(crc)`. -/
def pushDirect (table : List Nat) (i : Nat) : List Nat :=
  let crc := u16 (i <<< 8)
  let crc := directLoop 8 crc
  table ++ [crc]

/-- One iteration of the second constructor loop: `uint16_t crc = i;`, the
8-step reflected loop, `revTable.push_back(crc)`. -/
def pushMirror (revTable : List Nat) (i : Nat) : List Nat :=
  let crc := u16 i
  let crc := mirrorLoop 8 crc
  revTable ++ [crc]

/-- The constructor `CRC16Calculator()`: both vectors start empty and each of
the two loops runs `i` over `0 .. 255`. -/
def CRC16Calculator.new : CRC16Calculator :=
  let table := (List.range 256).foldl pushDirect []
  let revTable := (List.range 256).foldl pushMirror []
  { table := table, revTable := revTable }

/-! ## The five checksum methods -/

/-- Loop body of `simpleSequential`: `crc ^= (b << 8);` then the 8-step direct
loop. -/
def simpleSequentialByte (crc b : Nat) : Nat :=
  let crc := u16 (crc ^^^ (b <<< 8))
  directLoop 8 crc

/-- Method `simpleSequential` (the receiver is not read). -/
def simpleSequential (data : List Nat) : Nat :=
  data.foldl simpleSequentialByte 0

/-- Loop body of `tableAlgorithm`: `uint8_t pos = (crc >> 8) ^ b;`
`crc = (crc << 8) ^ table[pos];`. -/
def tableAlgorithmByte (self : CRC16Calculator) (crc b : Nat) : Option Nat :=
  let pos := u8 ((crc >>> 8) ^^^ b)
  (self.table.get? pos).map fun t => u16 ((crc <<< 8) ^^^ t)

/-- Method `tableAlgorithm`. -/
def tableAlgorithm (self : CRC16Calculator) (data : List Nat) : Option Nat :=
  data.foldlM (tableAlgorithmByte self) 0

/-- Loop body of `mirrorSequential`: `crc ^= b;` then the 8-step reflected
loop. -/
def mirrorSequentialByte (crc b : Nat) : Nat :=
  let crc := u16 (crc ^^^ b)
  mirrorLoop 8 crc

/-- Method `mirrorSequential` (the receiver is not read). -/
def mirrorSequential (data : List Nat) : Nat :=
  data.foldl mirrorSequentialByte 0

/-- Loop body of `mirrorTable`: `uint8_t pos = (crc ^ b) & 0xFF;`
`crc = (crc >> 8) ^ revTable[pos];`. -/
def mirrorTableByte (self : CRC16Calculator) (crc b : Nat) : Option Nat :=
  let pos := u8 ((crc ^^^ b) &&& 0xFF)
  (self.revTable.get? pos).map fun t => u16 ((crc >>> 8) ^^^ t)

/-- Method `mirrorTable`. -/
def mirrorTable (self : CRC16Calculator) (data : List Nat) : Option Nat :=
  data.foldlM (mirrorTableByte self) 0

/-- Method `standardCRC16_ARC`: `uint16_t crc = 0x0000;`, the loop body of
`mirrorTable` written out again, and `return crc ^ 0x0000;`. -/
def standardCRC16_ARC (self : CRC16Calculator) (data : List Nat) : Option Nat :=
  (data.foldlM
    (fun crc b =>
      let pos := u8 ((crc ^^^ b) &&& 0xFF)
      (self.revTable.get? pos).map fun t => u16 ((crc >>> 8) ^^^ t))
    0x0000).map fun crc => u16 (crc ^^^ 0x0000)

/-- The input buffer is a `vector<uint8_t>`: every element is below 256. -/
def IsBytes (data : List Nat) : Prop := ∀ b ∈ data, b < 256

instance (data : List Nat) : Decidable (IsBytes data) := by
  unfold IsBytes; infer_instance

/-- Two buffers of the same length that differ in exactly one bit of exactly
one byte: at one position `i` the two bytes differ by a single bit `2 ^ j` with
`j < 8`, and at every other position they are equal. -/
def DifferInOneBit (a b : List Nat) : Prop :=
  a.length = b.length ∧
    ∃ i < a.length, ∃ j < 8,
      a.getD i 0 ^^^ b.getD i 0 = 2 ^ j ∧ ∀ k < a.length, k ≠ i → a.getD k 0 = b.getD k 0

instance (a b : List Nat) : Decidable (DifferInOneBit a b) := by
  unfold DifferInOneBit; infer_instance

/-! ## Method calls with the engine state made explicit -/

/-- A computation inside a method call, in state-passing form: it receives the
engine (the members `table` and `revTable`) and either has no defined result or
returns a value together with the engine it leaves behind. -/
abbrev Call (α : Type) : Type := StateT CRC16Calculator Option α

/-- The member access `table[pos]` of a method body: the value stored at `pos`
and the engine as it was received; no result when `pos` is outside the
vector. -/
def readTable (pos : Nat) : Call Nat :=
  fun self => (self.table.get? pos).map fun t => (t, self)

/-- The member access `revTable[pos]` of a method body. -/
def readRevTable (pos : Nat) : Call Nat :=
  fun self => (self.revTable.get? pos).map fun t => (t, self)

/-- A call of `simpleSequential`: the body accesses no member. -/
def callSimpleSequential (data : List Nat) : Call Nat :=
  data.foldlM
    (fun crc b =>
      let crc := u16 (crc ^^^ (b <<< 8))
      pure (directLoop 8 crc))
    0

/-- A call of `tableAlgorithm`: each iteration reads `table[pos]`. -/
def callTableAlgorithm (data : List Nat) : Call Nat :=
  data.foldlM
    (fun crc b => do
      let pos := u8 ((crc >>> 8) ^^^ b)
      let t ← readTable pos
      pure (u16 ((crc <<< 8) ^^^ t)))
    0

/-- A call of `mirrorSequential`: the body accesses no member. -/
def callMirrorSequential (data : List Nat) : Call Nat :=
  data.foldlM
    (fun crc b =>
      let crc := u16 (crc ^^^ b)
      pure (mirrorLoop 8 crc))
    0

/-- A call of `mirrorTable`: each iteration reads `revTable[pos]`. -/
def callMirrorTable (data : List Nat) : Call Nat :=
  data.foldlM
    (fun crc b => do
      let pos := u8 ((crc ^^^ b) &&& 0xFF)
      let t ← readRevTable pos
      pure (u16 ((crc >>> 8) ^^^ t)))
    0

/-- A call of `standardCRC16_ARC`: each iteration reads `revTable[pos]`, and the
result is `crc ^ 0x0000`. -/
def callStandardCRC16_ARC (data : List Nat) : Call Nat := do
  let crc ← data.foldlM
    (fun crc b => do
      let pos := u8 ((crc ^^^ b) &&& 0xFF)
      let t ← readRevTable pos
      pure (u16 ((crc >>> 8) ^^^ t)))
    0x0000
  pure (u16 (crc ^^^ 0x0000))

/-- The five public checksum methods of `CRC16Calculator`. -/
inductive Method where
  | simpleSequential
  | tableAlgorithm
  | mirrorSequential
  | mirrorTable
  | standardCRC16_ARC
deriving DecidableEq, Repr

/-- A call of the method `m` on the input buffer `data`. -/
def Method.call (m : Method) (data : List Nat) : Call Nat :=
  match m with
  | .simpleSequential => callSimpleSequential data
  | .tableAlgorithm => callTableAlgorithm data
  | .mirrorSequential => callMirrorSequential data
  | .mirrorTable => callMirrorTable data
  | .standardCRC16_ARC => callStandardCRC16_ARC data

/-- A sequence of method calls on one engine, in order, each call receiving the
engine the previous call left behind: the list of returned values. -/
def runCalls : List (Method × List Nat) → Call (List Nat)
  | [] => pure []
  | (m, data) :: rest => do
    let r ← m.call data
    let rs ← runCalls rest
    pure (r :: rs)

/-! ## Truncation and XOR -/

theorem u16_lt (x : Nat) : u16 x < 65536 := Nat.mod_lt _ (by decide)

theorem u16_of_lt {x : Nat} (h : x < 65536) : u16 x = x := Nat.mod_eq_of_lt h

theorem u8_lt (x : Nat) : u8 x < 256 := Nat.mod_lt _ (by decide)

theorem u8_of_lt {x : Nat} (h : x < 256) : u8 x = x := Nat.mod_eq_of_lt h

theorem u16_xor (a b : Nat) : u16 (a ^^^ b) = u16 a ^^^ u16 b := by
  apply Nat.eq_of_testBit_eq; intro i
  simp only [u16, show (65536 : Nat) = 2 ^ 16 from rfl, Nat.testBit_xor, Nat.testBit_mod_two_pow]
  cases decide (i < 16) <;> simp

theorem shiftLeft_xor (a b k : Nat) : (a ^^^ b) <<< k = (a <<< k) ^^^ (b <<< k) := by
  apply Nat.eq_of_testBit_eq; intro i
  simp only [Nat.testBit_xor, Nat.testBit_shiftLeft]
  cases decide (i ≥ k) <;> simp

theorem shiftRight_xor (a b k : Nat) : (a ^^^ b) >>> k = (a >>> k) ^^^ (b >>> k) := by
  apply Nat.eq_of_testBit_eq; intro i
  simp only [Nat.testBit_xor, Nat.testBit_shiftRight]

theorem xor_lt_65536 {a b : Nat} (ha : a < 65536) (hb : b < 65536) : a ^^^ b < 65536 :=
  Nat.xor_lt_two_pow (n := 16) ha hb

/-! ## The two loop bodies are XOR-linear -/

theorem and_top_ne_zero (c : Nat) : (c &&& 0x8000 ≠ 0) ↔ c.testBit 15 = true := by
  have h := Nat.and_two_pow c 15
  rw [show (2 : Nat) ^ 15 = 0x8000 from rfl] at h
  rw [h]
  cases c.testBit 15 <;> simp

theorem and_one_ne_zero (c : Nat) : (c &&& 1 ≠ 0) ↔ c.testBit 0 = true := by
  have h := Nat.and_two_pow c 0
  rw [show (2 : Nat) ^ 0 = 1 from rfl] at h
  rw [h]
  cases c.testBit 0 <;> simp

/-- The direct loop body as one XOR: shift, truncate, and add the polynomial
when bit 15 was set. -/
theorem directStep_eq (c : Nat) :
    directStep c = u16 (c <<< 1) ^^^ (if c.testBit 15 then POLYNOMIAL else 0) := by
  unfold directStep
  by_cases h : c.testBit 15 = true
  · rw [if_pos ((and_top_ne_zero c).2 h), if_pos h, u16_xor]
    rfl
  · rw [if_neg (fun hc => h ((and_top_ne_zero c).1 hc)), if_neg h, Nat.xor_zero]

/-- The reflected loop body as one XOR. -/
theorem mirrorStep_eq (c : Nat) :
    mirrorStep c = u16 (c >>> 1) ^^^ (if c.testBit 0 then REV_POLYNOMIAL else 0) := by
  unfold mirrorStep
  by_cases h : c.testBit 0 = true
  · rw [if_pos ((and_one_ne_zero c).2 h), if_pos h, u16_xor]
    rfl
  · rw [if_neg (fun hc => h ((and_one_ne_zero c).1 hc)), if_neg h, Nat.xor_zero]

theorem xor_xor_xor_comm (x y p q : Nat) :
    (x ^^^ y) ^^^ (p ^^^ q) = (x ^^^ p) ^^^ (y ^^^ q) := by
  apply Nat.eq_of_testBit_eq; intro i
  simp only [Nat.testBit_xor]
  cases x.testBit i <;> cases y.testBit i <;> cases p.testBit i <;> cases q.testBit i <;> rfl

theorem ite_xor_ite (s t : Bool) (p : Nat) :
    (if (s ^^ t) = true then p else 0) =
      (if s = true then p else 0) ^^^ (if t = true then p else 0) := by
  cases s <;> cases t <;> simp

theorem directStep_xor (a b : Nat) : directStep (a ^^^ b) = directStep a ^^^ directStep b := by
  simp only [directStep_eq, shiftLeft_xor, u16_xor, Nat.testBit_xor, ite_xor_ite]
  exact xor_xor_xor_comm _ _ _ _

theorem mirrorStep_xor (a b : Nat) : mirrorStep (a ^^^ b) = mirrorStep a ^^^ mirrorStep b := by
  simp only [mirrorStep_eq, shiftRight_xor, u16_xor, Nat.testBit_xor, ite_xor_ite]
  exact xor_xor_xor_comm _ _ _ _

theorem directLoop_xor (n a b : Nat) :
    directLoop n (a ^^^ b) = directLoop n a ^^^ directLoop n b := by
  induction n generalizing a b with
  | zero => rfl
  | succ n ih => simp only [directLoop, directStep_xor, ih]

theorem mirrorLoop_xor (n a b : Nat) :
    mirrorLoop n (a ^^^ b) = mirrorLoop n a ^^^ mirrorLoop n b := by
  induction n generalizing a b with
  | zero => rfl
  | succ n ih => simp only [mirrorLoop, mirrorStep_xor, ih]

theorem directStep_lt (c : Nat) : directStep c < 65536 := by
  unfold directStep; split <;> exact u16_lt _

theorem mirrorStep_lt (c : Nat) : mirrorStep c < 65536 := by
  unfold mirrorStep; split <;> exact u16_lt _

theorem directLoop_lt (n : Nat) {c : Nat} (h : c < 65536) : directLoop n c < 65536 := by
  induction n generalizing c with
  | zero => exact h
  | succ n ih => exact ih (directStep_lt c)

theorem mirrorLoop_lt (n : Nat) {c : Nat} (h : c < 65536) : mirrorLoop n c < 65536 := by
  induction n generalizing c with
  | zero => exact h
  | succ n ih => exact ih (mirrorStep_lt c)

/-- Eight direct steps on a register whose high byte is clear only move the
low byte up. -/
theorem directLoop_low : ∀ lo < 256, directLoop 8 lo = lo <<< 8 := by decide!

/-- Eight reflected steps on a register whose low byte is clear only move the
high byte down. -/
theorem mirrorLoop_high : ∀ hi < 256, mirrorLoop 8 (hi <<< 8) = hi := by decide!

theorem testBit_of_lt_65536 {c : Nat} (h : c < 65536) {i : Nat} (hi : 16 ≤ i) :
    c.testBit i = false :=
  Nat.testBit_lt_two_pow (lt_of_lt_of_le h (Nat.pow_le_pow_right (by decide : 2 > 0) hi))

theorem testBit_of_lt_256 {b : Nat} (h : b < 256) {i : Nat} (hi : 8 ≤ i) :
    b.testBit i = false :=
  Nat.testBit_lt_two_pow (lt_of_lt_of_le h (Nat.pow_le_pow_right (by decide : 2 > 0) hi))

/-- Splitting the register after `crc ^= (b << 8)` into the table index (high
byte) and the untouched low byte. -/
theorem direct_split (crc b : Nat) :
    u16 (crc ^^^ (b <<< 8)) = (u8 ((crc >>> 8) ^^^ b) <<< 8) ^^^ u8 crc := by
  apply Nat.eq_of_testBit_eq; intro i
  simp only [u16, u8, show (65536 : Nat) = 2 ^ 16 from rfl, show (256 : Nat) = 2 ^ 8 from rfl,
    Nat.testBit_xor, Nat.testBit_mod_two_pow, Nat.testBit_shiftLeft, Nat.testBit_shiftRight]
  rcases Nat.lt_or_ge i 8 with h8 | h8
  · have h16 : i < 16 := by omega
    simp [h8, h16, Nat.not_le.2 h8]
  · rcases Nat.lt_or_ge i 16 with h16 | h16
    · have e : 8 + (i - 8) = i := by omega
      have l : i - 8 < 8 := by omega
      simp [h8, h16, Nat.not_lt.2 h8, e, l]
    · have l : ¬ i - 8 < 8 := by omega
      simp [h8, Nat.not_lt.2 h16, Nat.not_lt.2 h8, l]

/-- The register update of `tableAlgorithm` keeps the low byte, moved up, and
XORs the table entry in. -/
theorem direct_merge (crc : Nat) {t : Nat} (ht : t < 65536) :
    u16 ((crc <<< 8) ^^^ t) = (u8 crc <<< 8) ^^^ t := by
  rw [u16_xor, u16_of_lt ht]
  congr 1
  apply Nat.eq_of_testBit_eq; intro i
  simp only [u16, u8, show (65536 : Nat) = 2 ^ 16 from rfl, show (256 : Nat) = 2 ^ 8 from rfl,
    Nat.testBit_mod_two_pow, Nat.testBit_shiftLeft]
  rcases Nat.lt_or_ge i 8 with h8 | h8
  · simp [Nat.not_le.2 h8]
  · rcases Nat.lt_or_ge i 16 with h16 | h16
    · have l : i - 8 < 8 := by omega
      simp [h8, h16, l]
    · have l : ¬ i - 8 < 8 := by omega
      simp [h8, Nat.not_lt.2 h16, l]

/-- Splitting the register after `crc ^= b` into the untouched high byte and
the table index (low byte). -/
theorem mirror_split {crc b : Nat} (hc : crc < 65536) (hb : b < 256) :
    u16 (crc ^^^ b) = ((crc >>> 8) <<< 8) ^^^ u8 ((crc ^^^ b) &&& 0xFF) := by
  apply Nat.eq_of_testBit_eq; intro i
  rw [show (0xFF : Nat) = 2 ^ 8 - 1 from rfl, Nat.and_pow_two_sub_one_eq_mod]
  simp only [u16, u8, show (65536 : Nat) = 2 ^ 16 from rfl, show (256 : Nat) = 2 ^ 8 from rfl,
    Nat.testBit_xor, Nat.testBit_mod_two_pow, Nat.testBit_shiftLeft, Nat.testBit_shiftRight]
  rcases Nat.lt_or_ge i 8 with h8 | h8
  · have h16 : i < 16 := by omega
    simp [h8, h16, Nat.not_le.2 h8]
  · rcases Nat.lt_or_ge i 16 with h16 | h16
    · have e : 8 + (i - 8) = i := by omega
      simp [h8, h16, Nat.not_lt.2 h8, e, testBit_of_lt_256 hb h8]
    · have e : 8 + (i - 8) = i := by omega
      simp [h8, Nat.not_lt.2 h16, Nat.not_lt.2 h8, e, testBit_of_lt_65536 hc h16]

theorem shiftRight_8_lt {crc : Nat} (hc : crc < 65536) : crc >>> 8 < 256 := by
  rw [Nat.shiftRight_eq_div_pow]
  exact Nat.div_lt_of_lt_mul (by simpa using hc)

theorem shiftLeft_8_lt {p : Nat} (hp : p < 256) : p <<< 8 < 65536 := by
  rw [Nat.shiftLeft_eq]; omega

/-! ## Contents of the two tables -/

/-- What the first constructor loop stores at index `i`. -/
theorem table_get : ∀ i < 256,
    CRC16Calculator.new.table.get? i = some (directLoop 8 (u16 (i <<< 8))) := by decide!

/-- What the second constructor loop stores at index `i`. -/
theorem revTable_get : ∀ i < 256,
    CRC16Calculator.new.revTable.get? i = some (mirrorLoop 8 (u16 i)) := by decide!

/-! ## One byte: table lookup against the bit loop -/

theorem tableAlgorithmByte_new (crc b : Nat) :
    tableAlgorithmByte CRC16Calculator.new crc b = some (simpleSequentialByte crc b) := by
  have hp : u8 ((crc >>> 8) ^^^ b) < 256 := u8_lt _
  have hl : u8 crc < 256 := u8_lt _
  simp only [tableAlgorithmByte, simpleSequentialByte, table_get _ hp, Option.map_some']
  rw [direct_split crc b, directLoop_xor, directLoop_low _ hl,
    direct_merge crc (directLoop_lt 8 (u16_lt _)), u16_of_lt (shiftLeft_8_lt hp), Nat.xor_comm]

theorem mirrorTableByte_new {crc b : Nat} (hc : crc < 65536) (hb : b < 256) :
    mirrorTableByte CRC16Calculator.new crc b = some (mirrorSequentialByte crc b) := by
  have hp : u8 ((crc ^^^ b) &&& 0xFF) < 256 := u8_lt _
  have hh : crc >>> 8 < 256 := shiftRight_8_lt hc
  simp only [mirrorTableByte, mirrorSequentialByte, revTable_get _ hp, Option.map_some']
  rw [mirror_split hc hb, mirrorLoop_xor, mirrorLoop_high _ hh,
    u16_of_lt (lt_trans hp (by decide)),
    u16_of_lt (xor_lt_65536 (lt_trans hh (by decide)) (mirrorLoop_lt 8 (lt_trans hp (by decide))))]

theorem simpleSequentialByte_lt (crc b : Nat) : simpleSequentialByte crc b < 65536 :=
  directLoop_lt 8 (u16_lt _)

theorem mirrorSequentialByte_lt (crc b : Nat) : mirrorSequentialByte crc b < 65536 :=
  mirrorLoop_lt 8 (u16_lt _)

/-! ## Whole buffers -/

theorem foldl_simpleSequentialByte_lt (data : List Nat) {crc : Nat} (hc : crc < 65536) :
    data.foldl simpleSequentialByte crc < 65536 := by
  induction data generalizing crc with
  | nil => exact hc
  | cons b bs ih => exact ih (simpleSequentialByte_lt crc b)

theorem foldl_mirrorSequentialByte_lt (data : List Nat) {crc : Nat} (hc : crc < 65536) :
    data.foldl mirrorSequentialByte crc < 65536 := by
  induction data generalizing crc with
  | nil => exact hc
  | cons b bs ih => exact ih (mirrorSequentialByte_lt crc b)

theorem simpleSequential_lt (data : List Nat) : simpleSequential data < 65536 :=
  foldl_simpleSequentialByte_lt data (by decide)

theorem mirrorSequential_lt (data : List Nat) : mirrorSequential data < 65536 :=
  foldl_mirrorSequentialByte_lt data (by decide)

/-- The table-driven direct loop, started from any register value, never fails
and tracks the bit-serial loop. -/
theorem foldlM_tableAlgorithmByte (data : List Nat) (crc : Nat) :
    data.foldlM (tableAlgorithmByte CRC16Calculator.new) crc =
      some (data.foldl simpleSequentialByte crc) := by
  induction data generalizing crc with
  | nil => rfl
  | cons b bs ih =>
    rw [List.foldlM_cons, tableAlgorithmByte_new, List.foldl_cons]
    exact ih _

/-- The table-driven reflected loop, started from a 16-bit register value on a
buffer of bytes, never fails and tracks the bit-serial loop. -/
theorem foldlM_mirrorTableByte (data : List Nat) (hd : IsBytes data) {crc : Nat}
    (hc : crc < 65536) :
    data.foldlM (mirrorTableByte CRC16Calculator.new) crc =
      some (data.foldl mirrorSequentialByte crc) := by
  induction data generalizing crc with
  | nil => rfl
  | cons b bs ih =>
    have hb : b < 256 := hd b (List.mem_cons_self b bs)
    rw [List.foldlM_cons, mirrorTableByte_new hc hb, List.foldl_cons]
    exact ih (fun x hx => hd x (List.mem_cons_of_mem b hx)) (mirrorSequentialByte_lt crc b)

/-- The standardized profile is the reflected table method followed by the
final XOR with `0x0000`. -/
theorem standardCRC16_ARC_eq (self : CRC16Calculator) (data : List Nat) :
    standardCRC16_ARC self data = (mirrorTable self data).map fun crc => u16 (crc ^^^ 0x0000) :=
  rfl

theorem tableAlgorithm_new (data : List Nat) :
    tableAlgorithm CRC16Calculator.new data = some (simpleSequential data) :=
  foldlM_tableAlgorithmByte data 0

theorem mirrorTable_new (data : List Nat) (hd : IsBytes data) :
    mirrorTable CRC16Calculator.new data = some (mirrorSequential data) :=
  foldlM_mirrorTableByte data hd (by decide)

theorem standardCRC16_ARC_new (data : List Nat) (hd : IsBytes data) :
    standardCRC16_ARC CRC16Calculator.new data = some (mirrorSequential data) := by
  rw [standardCRC16_ARC_eq, mirrorTable_new data hd, Option.map_some', Nat.xor_zero,
    u16_of_lt (mirrorSequential_lt data)]

/-! ## Direct and reflected family agreement -/

/-- Claim C1. Direct family agreement: on every byte sequence (the empty one
included) the table-driven direct method, reading the direct table filled by the
constructor, returns a value, and that value is the result of the bit-serial
direct method; all register arithmetic is truncated to 16 bits. -/
theorem direct_family_agreement (data : List Nat) (_hd : IsBytes data) :
    tableAlgorithm CRC16Calculator.new data = some (simpleSequential data) :=
  tableAlgorithm_new data

theorem direct_family_agreement_witness :
    IsBytes [0x31, 0x00, 0xFF, 0x80] ∧
      tableAlgorithm CRC16Calculator.new [0x31, 0x00, 0xFF, 0x80] =
        some (simpleSequential [0x31, 0x00, 0xFF, 0x80]) :=
  ⟨by decide, direct_family_agreement [0x31, 0x00, 0xFF, 0x80] (by decide)⟩

/-- Claim C2. Reflected family agreement: on every byte sequence the reflected
table method and the standardized CRC-16/ARC method, both reading the reflected
table filled by the constructor, return a value, and both values are the result
of the bit-serial reflected method. -/
theorem reflected_family_agreement (data : List Nat) (hd : IsBytes data) :
    mirrorTable CRC16Calculator.new data = some (mirrorSequential data) ∧
      standardCRC16_ARC CRC16Calculator.new data = some (mirrorSequential data) :=
  ⟨mirrorTable_new data hd, standardCRC16_ARC_new data hd⟩

theorem reflected_family_agreement_witness :
    IsBytes [0x31, 0x00, 0xFF, 0x80] ∧
      mirrorTable CRC16Calculator.new [0x31, 0x00, 0xFF, 0x80] =
        some (mirrorSequential [0x31, 0x00, 0xFF, 0x80]) ∧
      standardCRC16_ARC CRC16Calculator.new [0x31, 0x00, 0xFF, 0x80] =
        some (mirrorSequential [0x31, 0x00, 0xFF, 0x80]) :=
  ⟨by decide, reflected_family_agreement [0x31, 0x00, 0xFF, 0x80] (by decide)⟩

/-- Claim C3. Known vector: the standardized CRC-16/ARC method applied to the
nine ASCII bytes of "123456789" returns 0xBB3D. -/
theorem standardCRC16_ARC_check_value :
    standardCRC16_ARC CRC16Calculator.new
      [0x31, 0x32, 0x33, 0x34, 0x35, 0x36, 0x37, 0x38, 0x39] = some 0xBB3D := by
  decide!

/-! ## The lookup tables -/

/-- Claim C4. Table invariant: after construction both tables have exactly 256
entries, and entry 0 of each table is 0. -/
theorem table_invariant :
    CRC16Calculator.new.table.length = 256 ∧
      CRC16Calculator.new.revTable.length = 256 ∧
      CRC16Calculator.new.table.get? 0 = some 0 ∧
      CRC16Calculator.new.revTable.get? 0 = some 0 := by
  decide!

/-- Claim C5. Table contents: for every index `i` in 0..255 the direct table
entry is the bit-serial direct checksum of the one-byte sequence `[i]`, which is
the 8-step direct loop run on `i << 8`, and the reflected table entry is the
bit-serial reflected checksum of `[i]`, which is the 8-step reflected loop run
on `i`. -/
theorem table_contents (i : Nat) (hi : i < 256) :
    CRC16Calculator.new.table.get? i = some (simpleSequential [i]) ∧
      simpleSequential [i] = directLoop 8 (u16 (i <<< 8)) ∧
      CRC16Calculator.new.revTable.get? i = some (mirrorSequential [i]) ∧
      mirrorSequential [i] = mirrorLoop 8 (u16 i) := by
  have hd : simpleSequential [i] = directLoop 8 (u16 (i <<< 8)) := by
    simp only [simpleSequential, List.foldl_cons, List.foldl_nil, simpleSequentialByte,
      Nat.zero_xor]
  have hm : mirrorSequential [i] = mirrorLoop 8 (u16 i) := by
    simp only [mirrorSequential, List.foldl_cons, List.foldl_nil, mirrorSequentialByte,
      Nat.zero_xor]
  exact ⟨hd ▸ table_get i hi, hd, hm ▸ revTable_get i hi, hm⟩

theorem table_contents_witness :
    (0xA7 : Nat) < 256 ∧
      (CRC16Calculator.new.table.get? 0xA7 = some (simpleSequential [0xA7]) ∧
        simpleSequential [0xA7] = directLoop 8 (u16 (0xA7 <<< 8)) ∧
        CRC16Calculator.new.revTable.get? 0xA7 = some (mirrorSequential [0xA7]) ∧
        mirrorSequential [0xA7] = mirrorLoop 8 (u16 0xA7)) :=
  ⟨by decide, table_contents 0xA7 (by decide)⟩

/-! ## Boundary inputs -/

/-- Claim C6. Empty input: on the empty byte sequence each of the five checksum
methods returns 0 (whatever the tables of the engine hold). -/
theorem empty_input (self : CRC16Calculator) :
    simpleSequential [] = 0 ∧
      tableAlgorithm self [] = some 0 ∧
      mirrorSequential [] = 0 ∧
      mirrorTable self [] = some 0 ∧
      standardCRC16_ARC self [] = some 0 :=
  ⟨rfl, rfl, rfl, rfl, rfl⟩

/-- Claim C7. Single zero byte: on the one-byte sequence `[0x00]` each of the
five checksum methods of a constructed engine returns 0. -/
theorem single_zero_byte :
    simpleSequential [0x00] = 0 ∧
      tableAlgorithm CRC16Calculator.new [0x00] = some 0 ∧
      mirrorSequential [0x00] = 0 ∧
      mirrorTable CRC16Calculator.new [0x00] = some 0 ∧
      standardCRC16_ARC CRC16Calculator.new [0x00] = some 0 := by
  decide!

/-! ## Bit-reversal helpers -/

theorem reverseByte_lt (b : Nat) : reverseByte b < 256 := u8_lt _

theorem reverseByte_reverseByte : ∀ x < 256, reverseByte (reverseByte x) = x := by decide!

theorem reverseByte_testBit :
    ∀ x < 256, ∀ k < 8, (reverseByte x).testBit k = x.testBit (7 - k) := by decide!

/-- Two bytes packed by shift and OR: the value, its low byte and its high
byte. -/
theorem pack_bytes {a b : Nat} (ha : a < 256) (hb : b < 256) :
    u16 ((a <<< 8) ||| b) = a * 256 + b ∧
      u8 ((a * 256 + b) &&& 0xFF) = b ∧
      u8 (((a * 256 + b) >>> 8) &&& 0xFF) = a := by
  have hor : (a <<< 8) ||| b = a * 256 + b := by
    rw [Nat.shiftLeft_eq, Nat.mul_comm a (2 ^ 8)]
    exact ((Nat.mul_add_lt_is_or (i := 8) hb a).symm).trans (by omega)
  have hff : ∀ x : Nat, x &&& 0xFF = x % 256 := fun x =>
    Nat.and_pow_two_sub_one_eq_mod x 8
  refine ⟨?_, ?_, ?_⟩
  · rw [hor, u16]; omega
  · rw [hff, u8]; omega
  · rw [hff, u8, Nat.shiftRight_eq_div_pow]; omega

/-- The two bytes that `reverse16` extracts from a 16-bit word. -/
theorem unpack_word {w : Nat} (hw : w < 65536) :
    u8 (w &&& 0xFF) < 256 ∧ u8 ((w >>> 8) &&& 0xFF) < 256 ∧
      u8 ((w >>> 8) &&& 0xFF) * 256 + u8 (w &&& 0xFF) = w := by
  have hff : ∀ x : Nat, x &&& 0xFF = x % 256 := fun x =>
    Nat.and_pow_two_sub_one_eq_mod x 8
  refine ⟨u8_lt _, u8_lt _, ?_⟩
  rw [hff, hff, u8, u8, Nat.shiftRight_eq_div_pow]; omega

/-- Claim C8. The byte reversal is an involution: for every `x` in 0..255,
reversing twice gives `x` back. -/
theorem reverseByte_involution (x : Nat) (hx : x < 256) :
    reverseByte (reverseByte x) = x :=
  reverseByte_reverseByte x hx

theorem reverseByte_involution_witness :
    (0xB0 : Nat) < 256 ∧ reverseByte (reverseByte 0xB0) = 0xB0 :=
  ⟨by decide, reverseByte_involution 0xB0 (by decide)⟩

/-- Claim C9. The 16-bit word reversal is an involution: for every `w` in
0..65535, reversing twice gives `w` back. -/
theorem reverse16_involution (w : Nat) (hw : w < 65536) :
    reverse16 (reverse16 w) = w := by
  obtain ⟨hl, hh, hsum⟩ := unpack_word hw
  have hrl := reverseByte_lt (u8 (w &&& 0xFF))
  have hrh := reverseByte_lt (u8 ((w >>> 8) &&& 0xFF))
  have h1 : reverse16 w =
      reverseByte (u8 (w &&& 0xFF)) * 256 + reverseByte (u8 ((w >>> 8) &&& 0xFF)) :=
    (pack_bytes hrl hrh).1
  obtain ⟨-, hlo, hhi⟩ := pack_bytes hrl hrh
  rw [h1]
  unfold reverse16
  simp only [hlo, hhi, reverseByte_reverseByte _ hl, reverseByte_reverseByte _ hh]
  rw [(pack_bytes hh hl).1, hsum]

theorem reverse16_involution_witness :
    (0x8005 : Nat) < 65536 ∧ reverse16 (reverse16 0x8005) = 0x8005 :=
  ⟨by decide, reverse16_involution 0x8005 (by decide)⟩

/-- Claim C10. The byte reversal reverses the order of the 8 bits: for every `x`
in 0..255 and every bit position `k` in 0..7, bit `k` of the result is bit
`7 - k` of `x`; in particular 0b10110000 is sent to 0b00001101. -/
theorem reverseByte_bits (x k : Nat) (hx : x < 256) (hk : k < 8) :
    (reverseByte x).testBit k = x.testBit (7 - k) ∧
      reverseByte 0b10110000 = 0b00001101 :=
  ⟨reverseByte_testBit x hx k hk, rfl⟩

theorem reverseByte_bits_witness :
    ((0b10110000 : Nat) < 256 ∧ (2 : Nat) < 8) ∧
      ((reverseByte 0b10110000).testBit 2 = Nat.testBit 0b10110000 (7 - 2) ∧
        reverseByte 0b10110000 = 0b00001101) :=
  ⟨by decide, reverseByte_bits 0b10110000 2 (by decide) (by decide)⟩

/-! ## The 16-bit reversal, bit by bit -/

theorem and_255 (x : Nat) : x &&& 0xFF = x % 256 := Nat.and_pow_two_sub_one_eq_mod x 8

theorem reverseByte_testBit_high (x : Nat) {k : Nat} (hk : 8 ≤ k) :
    (reverseByte x).testBit k = false :=
  testBit_of_lt_256 (reverseByte_lt x) hk

theorem reverse16_lt (w : Nat) : reverse16 w < 65536 := u16_lt _

theorem testBit_u8 (x k : Nat) : (u8 x).testBit k = (decide (k < 8) && x.testBit k) :=
  Nat.testBit_mod_two_pow x 8 k

theorem testBit_u16 (x k : Nat) : (u16 x).testBit k = (decide (k < 16) && x.testBit k) :=
  Nat.testBit_mod_two_pow x 16 k

theorem testBit_and_255 (x k : Nat) :
    (x &&& 0xFF).testBit k = (decide (k < 8) && x.testBit k) := by
  rw [and_255]; exact Nat.testBit_mod_two_pow x 8 k

/-- Bit `k` of `reverse16 w`, for every position `k`: bit `15 - k` of `w` below
position 16 and nothing above. -/
theorem reverse16_testBit (w k : Nat) :
    (reverse16 w).testBit k = (decide (k < 16) && w.testBit (15 - k)) := by
  unfold reverse16
  simp only [testBit_u16, Nat.testBit_or, Nat.testBit_shiftLeft]
  rcases Nat.lt_or_ge k 8 with h8 | h8
  · have h16 : k < 16 := by omega
    have e : 8 + (7 - k) = 15 - k := by omega
    have l : 7 - k < 8 := by omega
    rw [reverseByte_testBit _ (u8_lt _) k h8, testBit_u8, testBit_and_255,
      Nat.testBit_shiftRight, e]
    simp [h16, Nat.not_le.2 h8, l]
  · rcases Nat.lt_or_ge k 16 with h16 | h16
    · have l : k - 8 < 8 := by omega
      have e : 7 - (k - 8) = 15 - k := by omega
      have l2 : 15 - k < 8 := by omega
      rw [reverseByte_testBit _ (u8_lt _) (k - 8) l, reverseByte_testBit_high _ h8, testBit_u8,
        testBit_and_255, e]
      simp [h16, h8, l2]
    · simp [Nat.not_lt.2 h16]

/-- The value of `reverse16 w` as two packed bytes. -/
theorem reverse16_eq {w : Nat} (hw : w < 65536) :
    reverse16 w = reverseByte (w &&& 0xFF) * 256 + reverseByte (w >>> 8) := by
  have hl : u8 (w &&& 0xFF) = w &&& 0xFF := u8_of_lt (by rw [and_255]; omega)
  have hh : u8 ((w >>> 8) &&& 0xFF) = w >>> 8 := by
    rw [and_255, u8, Nat.shiftRight_eq_div_pow]; omega
  unfold reverse16
  simp only [hl, hh]
  exact (pack_bytes (reverseByte_lt _) (reverseByte_lt _)).1

/-- Claim C11. The word reversal reverses the bit order across the whole 16-bit
word: for every `w` in 0..65535 and every bit position `k` in 0..15, bit `k` of
`reverse16 w` is bit `15 - k` of `w`; and the high byte of `reverse16 w` is the
byte reversal of the low byte of `w`, its low byte the byte reversal of the high
byte of `w`. -/
theorem reverse16_bits (w k : Nat) (hw : w < 65536) (hk : k < 16) :
    (reverse16 w).testBit k = w.testBit (15 - k) ∧
      (reverse16 w) >>> 8 = reverseByte (w &&& 0xFF) ∧
      (reverse16 w) &&& 0xFF = reverseByte (w >>> 8) := by
  have ha := reverseByte_lt (w &&& 0xFF)
  have hb := reverseByte_lt (w >>> 8)
  refine ⟨by simp [reverse16_testBit, hk], ?_, ?_⟩
  · rw [reverse16_eq hw, Nat.shiftRight_eq_div_pow]
    omega
  · rw [reverse16_eq hw, and_255]
    omega

theorem reverse16_bits_witness :
    ((0x8005 : Nat) < 65536 ∧ (2 : Nat) < 16) ∧
      ((reverse16 0x8005).testBit 2 = Nat.testBit 0x8005 (15 - 2) ∧
        (reverse16 0x8005) >>> 8 = reverseByte (0x8005 &&& 0xFF) ∧
        (reverse16 0x8005) &&& 0xFF = reverseByte (0x8005 >>> 8)) :=
  ⟨by decide, reverse16_bits 0x8005 2 (by decide) (by decide)⟩

/-- Claim C12. The two polynomial constants are bit-reversals of each other at
width 16: `reverse16 0x8005 = 0xA001` and `reverse16 0xA001 = 0x8005`. -/
theorem polynomial_reversal :
    reverse16 POLYNOMIAL = REV_POLYNOMIAL ∧ reverse16 REV_POLYNOMIAL = POLYNOMIAL ∧
      POLYNOMIAL = 0x8005 ∧ REV_POLYNOMIAL = 0xA001 := by
  decide

/-! ## Totality of the table-driven paths -/

/-- Claim C13. Totality of the table-driven paths: for every 16-bit accumulator
value and every input byte, the index computed by `tableAlgorithm` lies below
256, the size of the direct table, and the index computed by `mirrorTable` and
`standardCRC16_ARC` lies below 256, the size of the reflected table, so the
lookup and the loop body succeed with a 16-bit value; and on every byte
sequence each of the five checksum methods returns a value in 0..65535. -/
theorem table_paths_total (data : List Nat) (crc b : Nat) (hd : IsBytes data)
    (hc : crc < 65536) (hb : b < 256) :
    (u8 ((crc >>> 8) ^^^ b) < CRC16Calculator.new.table.length ∧
        CRC16Calculator.new.table.length = 256 ∧
        ∃ v, tableAlgorithmByte CRC16Calculator.new crc b = some v ∧ v < 65536) ∧
      (u8 ((crc ^^^ b) &&& 0xFF) < CRC16Calculator.new.revTable.length ∧
        CRC16Calculator.new.revTable.length = 256 ∧
        ∃ v, mirrorTableByte CRC16Calculator.new crc b = some v ∧ v < 65536) ∧
      simpleSequential data < 65536 ∧
      mirrorSequential data < 65536 ∧
      (∃ v, tableAlgorithm CRC16Calculator.new data = some v ∧ v < 65536) ∧
      (∃ v, mirrorTable CRC16Calculator.new data = some v ∧ v < 65536) ∧
      (∃ v, standardCRC16_ARC CRC16Calculator.new data = some v ∧ v < 65536) := by
  have ht : CRC16Calculator.new.table.length = 256 := by decide!
  have hr : CRC16Calculator.new.revTable.length = 256 := by decide!
  refine ⟨⟨?_, ht, _, tableAlgorithmByte_new crc b, simpleSequentialByte_lt crc b⟩,
    ⟨?_, hr, _, mirrorTableByte_new hc hb, mirrorSequentialByte_lt crc b⟩,
    simpleSequential_lt data, mirrorSequential_lt data,
    ⟨_, tableAlgorithm_new data, simpleSequential_lt data⟩,
    ⟨_, mirrorTable_new data hd, mirrorSequential_lt data⟩,
    ⟨_, standardCRC16_ARC_new data hd, mirrorSequential_lt data⟩⟩
  · rw [ht]; exact u8_lt _
  · rw [hr]; exact u8_lt _

theorem table_paths_total_witness :
    (IsBytes [0x31, 0xFF] ∧ (0xBEEF : Nat) < 65536 ∧ (0xA7 : Nat) < 256) ∧
      ((u8 ((0xBEEF >>> 8) ^^^ 0xA7) < CRC16Calculator.new.table.length ∧
          CRC16Calculator.new.table.length = 256 ∧
          ∃ v, tableAlgorithmByte CRC16Calculator.new 0xBEEF 0xA7 = some v ∧ v < 65536) ∧
        (u8 ((0xBEEF ^^^ 0xA7) &&& 0xFF) < CRC16Calculator.new.revTable.length ∧
          CRC16Calculator.new.revTable.length = 256 ∧
          ∃ v, mirrorTableByte CRC16Calculator.new 0xBEEF 0xA7 = some v ∧ v < 65536) ∧
        simpleSequential [0x31, 0xFF] < 65536 ∧
        mirrorSequential [0x31, 0xFF] < 65536 ∧
        (∃ v, tableAlgorithm CRC16Calculator.new [0x31, 0xFF] = some v ∧ v < 65536) ∧
        (∃ v, mirrorTable CRC16Calculator.new [0x31, 0xFF] = some v ∧ v < 65536) ∧
        (∃ v, standardCRC16_ARC CRC16Calculator.new [0x31, 0xFF] = some v ∧ v < 65536)) :=
  ⟨by decide, table_paths_total [0x31, 0xFF] 0xBEEF 0xA7 (by decide) (by decide) (by decide)⟩

/-! ## XOR-linearity over whole buffers -/

theorem simpleSequentialByte_xor (c e x y : Nat) :
    simpleSequentialByte (c ^^^ e) (x ^^^ y) =
      simpleSequentialByte c x ^^^ simpleSequentialByte e y := by
  simp only [simpleSequentialByte]
  rw [shiftLeft_xor, xor_xor_xor_comm, u16_xor, directLoop_xor]

theorem mirrorSequentialByte_xor (c e x y : Nat) :
    mirrorSequentialByte (c ^^^ e) (x ^^^ y) =
      mirrorSequentialByte c x ^^^ mirrorSequentialByte e y := by
  simp only [mirrorSequentialByte]
  rw [xor_xor_xor_comm, u16_xor, mirrorLoop_xor]

theorem foldl_simpleSequentialByte_xor (a b : List Nat) (h : a.length = b.length) (c e : Nat) :
    (List.zipWith (fun x y => x ^^^ y) a b).foldl simpleSequentialByte (c ^^^ e) =
      a.foldl simpleSequentialByte c ^^^ b.foldl simpleSequentialByte e := by
  induction a generalizing b c e with
  | nil =>
    cases b with
    | nil => rfl
    | cons y ys => simp at h
  | cons x xs ih =>
    cases b with
    | nil => simp at h
    | cons y ys =>
      simp only [List.zipWith_cons_cons, List.foldl_cons, simpleSequentialByte_xor]
      exact ih ys (by simpa using h) _ _

theorem foldl_mirrorSequentialByte_xor (a b : List Nat) (h : a.length = b.length) (c e : Nat) :
    (List.zipWith (fun x y => x ^^^ y) a b).foldl mirrorSequentialByte (c ^^^ e) =
      a.foldl mirrorSequentialByte c ^^^ b.foldl mirrorSequentialByte e := by
  induction a generalizing b c e with
  | nil =>
    cases b with
    | nil => rfl
    | cons y ys => simp at h
  | cons x xs ih =>
    cases b with
    | nil => simp at h
    | cons y ys =>
      simp only [List.zipWith_cons_cons, List.foldl_cons, mirrorSequentialByte_xor]
      exact ih ys (by simpa using h) _ _

/-- Claim C18. XOR-linearity: for two byte sequences `a` and `b` of the same
length, the bit-serial direct checksum of their bytewise XOR is the XOR of their
direct checksums, and likewise for the bit-serial reflected checksum. -/
theorem checksum_xor_linear (a b : List Nat) (_ha : IsBytes a) (_hb : IsBytes b)
    (h : a.length = b.length) :
    simpleSequential (List.zipWith (fun x y => x ^^^ y) a b) =
        simpleSequential a ^^^ simpleSequential b ∧
      mirrorSequential (List.zipWith (fun x y => x ^^^ y) a b) =
        mirrorSequential a ^^^ mirrorSequential b :=
  ⟨foldl_simpleSequentialByte_xor a b h 0 0, foldl_mirrorSequentialByte_xor a b h 0 0⟩

theorem checksum_xor_linear_witness :
    (IsBytes [0x31, 0x32, 0xFF] ∧ IsBytes [0x80, 0x01, 0x7E] ∧
        [0x31, 0x32, 0xFF].length = [0x80, 0x01, 0x7E].length) ∧
      (simpleSequential (List.zipWith (fun x y => x ^^^ y) [0x31, 0x32, 0xFF] [0x80, 0x01, 0x7E]) =
          simpleSequential [0x31, 0x32, 0xFF] ^^^ simpleSequential [0x80, 0x01, 0x7E] ∧
        mirrorSequential (List.zipWith (fun x y => x ^^^ y) [0x31, 0x32, 0xFF] [0x80, 0x01, 0x7E]) =
          mirrorSequential [0x31, 0x32, 0xFF] ^^^ mirrorSequential [0x80, 0x01, 0x7E]) :=
  ⟨⟨by decide, by decide, by decide⟩,
    checksum_xor_linear [0x31, 0x32, 0xFF] [0x80, 0x01, 0x7E] (by decide) (by decide) (by decide)⟩

/-! ## Determinism and absence of hidden state -/

theorem foldlM_pure_run (f : Nat → Nat → Nat) (data : List Nat) (crc : Nat)
    (self : CRC16Calculator) :
    (data.foldlM (fun c b => (pure (f c b) : Call Nat)) crc).run self =
      some (data.foldl f crc, self) := by
  induction data generalizing crc with
  | nil => rfl
  | cons b bs ih =>
    rw [List.foldlM_cons, StateT.run_bind, StateT.run_pure, List.foldl_cons]
    exact ih _

theorem callSimpleSequential_run (data : List Nat) (self : CRC16Calculator) :
    (callSimpleSequential data).run self = some (simpleSequential data, self) :=
  foldlM_pure_run simpleSequentialByte data 0 self

theorem callMirrorSequential_run (data : List Nat) (self : CRC16Calculator) :
    (callMirrorSequential data).run self = some (mirrorSequential data, self) :=
  foldlM_pure_run mirrorSequentialByte data 0 self

/-- The loop of `tableAlgorithm` in state-passing form: the value is the one of
the loop over `tableAlgorithmByte`, and the engine comes back as received. -/
theorem foldlM_readTable_run (data : List Nat) (crc : Nat) (self : CRC16Calculator) :
    (data.foldlM
        (fun crc b => (do
          let pos := u8 ((crc >>> 8) ^^^ b)
          let t ← readTable pos
          pure (u16 ((crc <<< 8) ^^^ t)) : Call Nat))
        crc).run self =
      (data.foldlM (tableAlgorithmByte self) crc).map fun v => (v, self) := by
  induction data generalizing crc with
  | nil => rfl
  | cons b bs ih =>
    rw [List.foldlM_cons, List.foldlM_cons, StateT.run_bind, StateT.run_bind]
    simp only [tableAlgorithmByte, readTable, StateT.run]
    cases h : self.table.get? (u8 ((crc >>> 8) ^^^ b)) with
    | none => rfl
    | some t => exact ih _

/-- The loop of `mirrorTable` and `standardCRC16_ARC` in state-passing form. -/
theorem foldlM_readRevTable_run (data : List Nat) (crc : Nat) (self : CRC16Calculator) :
    (data.foldlM
        (fun crc b => (do
          let pos := u8 ((crc ^^^ b) &&& 0xFF)
          let t ← readRevTable pos
          pure (u16 ((crc >>> 8) ^^^ t)) : Call Nat))
        crc).run self =
      (data.foldlM (mirrorTableByte self) crc).map fun v => (v, self) := by
  induction data generalizing crc with
  | nil => rfl
  | cons b bs ih =>
    rw [List.foldlM_cons, List.foldlM_cons, StateT.run_bind, StateT.run_bind]
    simp only [mirrorTableByte, readRevTable, StateT.run]
    cases h : self.revTable.get? (u8 ((crc ^^^ b) &&& 0xFF)) with
    | none => rfl
    | some t => exact ih _

theorem callTableAlgorithm_run (data : List Nat) (self : CRC16Calculator) :
    (callTableAlgorithm data).run self =
      (tableAlgorithm self data).map fun v => (v, self) :=
  foldlM_readTable_run data 0 self

theorem callMirrorTable_run (data : List Nat) (self : CRC16Calculator) :
    (callMirrorTable data).run self =
      (mirrorTable self data).map fun v => (v, self) :=
  foldlM_readRevTable_run data 0 self

theorem callStandardCRC16_ARC_run (data : List Nat) (self : CRC16Calculator) :
    (callStandardCRC16_ARC data).run self =
      (standardCRC16_ARC self data).map fun v => (v, self) := by
  unfold callStandardCRC16_ARC
  rw [StateT.run_bind, foldlM_readRevTable_run, standardCRC16_ARC_eq]
  show _ = Option.map _ (Option.map _ (List.foldlM (mirrorTableByte self) 0 data))
  cases List.foldlM (mirrorTableByte self) 0 data <;> rfl

theorem map_pair_eq_some {o : Option Nat} {self after : CRC16Calculator} {v : Nat}
    (h : (o.map fun x => (x, self)) = some (v, after)) : o = some v ∧ after = self := by
  cases o with
  | none => exact absurd h (by simp)
  | some x =>
    have h2 : (x, self) = (v, after) := Option.some.inj h
    exact ⟨congrArg some (congrArg Prod.fst h2), (congrArg Prod.snd h2).symm⟩

/-- Every method call that returns hands the engine back as it received it. -/
theorem call_frame (m : Method) (data : List Nat) {self after : CRC16Calculator} {v : Nat}
    (h : (m.call data).run self = some (v, after)) : after = self := by
  cases m with
  | simpleSequential =>
    rw [show Method.simpleSequential.call data = callSimpleSequential data from rfl,
      callSimpleSequential_run] at h
    exact (congrArg Prod.snd (Option.some.inj h)).symm
  | tableAlgorithm =>
    rw [show Method.tableAlgorithm.call data = callTableAlgorithm data from rfl,
      callTableAlgorithm_run] at h
    exact (map_pair_eq_some h).2
  | mirrorSequential =>
    rw [show Method.mirrorSequential.call data = callMirrorSequential data from rfl,
      callMirrorSequential_run] at h
    exact (congrArg Prod.snd (Option.some.inj h)).symm
  | mirrorTable =>
    rw [show Method.mirrorTable.call data = callMirrorTable data from rfl,
      callMirrorTable_run] at h
    exact (map_pair_eq_some h).2
  | standardCRC16_ARC =>
    rw [show Method.standardCRC16_ARC.call data = callStandardCRC16_ARC data from rfl,
      callStandardCRC16_ARC_run] at h
    exact (map_pair_eq_some h).2

theorem runCalls_cons_run (m : Method) (data : List Nat) (rest : List (Method × List Nat))
    (self : CRC16Calculator) :
    (runCalls ((m, data) :: rest)).run self =
      ((m.call data).run self).bind fun p =>
        ((runCalls rest).run p.2).bind fun q => some (p.1 :: q.1, q.2) := by
  show ((m.call data >>= fun r => runCalls rest >>= fun rs => pure (r :: rs)) : Call _).run self = _
  rw [StateT.run_bind]
  cases (m.call data).run self with
  | none => rfl
  | some p =>
    simp only [Option.some_bind]
    show ((runCalls rest >>= fun rs => pure (p.1 :: rs)) : Call _).run p.2 = _
    rw [StateT.run_bind]
    cases (runCalls rest).run p.2 <;> rfl

/-- Every sequence of method calls that returns hands the engine back as it
received it. -/
theorem runCalls_frame (calls : List (Method × List Nat)) {self after : CRC16Calculator}
    {rs : List Nat} (h : (runCalls calls).run self = some (rs, after)) : after = self := by
  induction calls generalizing self after rs with
  | nil => exact (congrArg Prod.snd (Option.some.inj h)).symm
  | cons c rest ih =>
    obtain ⟨m, data⟩ := c
    rw [runCalls_cons_run] at h
    cases h1 : (m.call data).run self with
    | none => rw [h1] at h; exact absurd h (by simp)
    | some p =>
      obtain ⟨r, s1⟩ := p
      rw [h1] at h
      have e1 : s1 = self := call_frame m data h1
      cases h2 : (runCalls rest).run s1 with
      | none =>
        simp only [Option.some_bind] at h
        rw [h2] at h
        exact absurd h (by simp)
      | some q =>
        obtain ⟨rs2, s2⟩ := q
        simp only [Option.some_bind] at h
        rw [h2] at h
        have e2 : s2 = s1 := ih h2
        have e3 : s2 = after := congrArg Prod.snd (Option.some.inj h)
        rw [← e3, e2, e1]

/-- On a constructed engine every method call on a byte buffer returns. -/
theorem call_new (m : Method) (data : List Nat) (hd : IsBytes data) :
    ∃ v, (m.call data).run CRC16Calculator.new = some (v, CRC16Calculator.new) := by
  cases m with
  | simpleSequential => exact ⟨_, callSimpleSequential_run data _⟩
  | tableAlgorithm =>
    refine ⟨simpleSequential data, ?_⟩
    rw [show Method.tableAlgorithm.call data = callTableAlgorithm data from rfl,
      callTableAlgorithm_run, tableAlgorithm_new]
    rfl
  | mirrorSequential => exact ⟨_, callMirrorSequential_run data _⟩
  | mirrorTable =>
    refine ⟨mirrorSequential data, ?_⟩
    rw [show Method.mirrorTable.call data = callMirrorTable data from rfl,
      callMirrorTable_run, mirrorTable_new data hd]
    rfl
  | standardCRC16_ARC =>
    refine ⟨mirrorSequential data, ?_⟩
    rw [show Method.standardCRC16_ARC.call data = callStandardCRC16_ARC data from rfl,
      callStandardCRC16_ARC_run, standardCRC16_ARC_new data hd]
    rfl

theorem runCalls_append_run (xs ys : List (Method × List Nat)) {s0 s1 s2 : CRC16Calculator}
    {rx ry : List Nat} (hx : (runCalls xs).run s0 = some (rx, s1))
    (hy : (runCalls ys).run s1 = some (ry, s2)) :
    (runCalls (xs ++ ys)).run s0 = some (rx ++ ry, s2) := by
  induction xs generalizing s0 rx with
  | nil =>
    have h2 : (([] : List Nat), s0) = (rx, s1) := Option.some.inj hx
    cases h2
    exact hy
  | cons c rest ih =>
    obtain ⟨m, data⟩ := c
    rw [runCalls_cons_run] at hx
    rw [List.cons_append, runCalls_cons_run]
    cases h1 : (m.call data).run s0 with
    | none => rw [h1] at hx; exact absurd hx (by simp)
    | some p =>
      rw [h1] at hx
      simp only [Option.some_bind] at hx ⊢
      cases h2 : (runCalls rest).run p.2 with
      | none => rw [h2] at hx; exact absurd hx (by simp)
      | some q =>
        rw [h2] at hx
        simp only [Option.some_bind] at hx
        have e : (p.1 :: q.1, q.2) = (rx, s1) := Option.some.inj hx
        have e1 : rx = p.1 :: q.1 := (congrArg Prod.fst e).symm
        have e2 : q.2 = s1 := congrArg Prod.snd e
        have h3 : (runCalls rest).run p.2 = some (q.1, s1) := by rw [h2, ← e2]
        rw [ih h3, e1]
        rfl

/-- On a constructed engine every sequence of method calls on byte buffers
returns one value per call. -/
theorem runCalls_new (calls : List (Method × List Nat)) (h : ∀ c ∈ calls, IsBytes c.2) :
    ∃ rs, rs.length = calls.length ∧
      (runCalls calls).run CRC16Calculator.new = some (rs, CRC16Calculator.new) := by
  induction calls with
  | nil => exact ⟨[], rfl, rfl⟩
  | cons c rest ih =>
    obtain ⟨m, data⟩ := c
    obtain ⟨v, hv⟩ := call_new m data (h (m, data) (List.mem_cons_self _ _))
    obtain ⟨rs, hl, hrs⟩ := ih (fun c hc => h c (List.mem_cons_of_mem _ hc))
    refine ⟨v :: rs, by simp [hl], ?_⟩
    rw [runCalls_cons_run, hv]
    simp only [Option.some_bind]
    rw [hrs]
    rfl

/-- Claim C14. Determinism and no state leak, with the method bodies in
state-passing form.  (1) On any engine, a call of any of the five checksum
methods that returns leaves both lookup tables as they were.  (2) On any
engine, when a call returns `v` and any sequence of other checksum calls
follows, a second call on the same input returns `v` again, and the engine is
still the one the first call received.  (3) On a constructed engine every call
on a byte buffer returns, and the value it returns depends only on the method
and the input: whatever calls on byte buffers come before and in between, both
calls return the value a fresh engine returns, and the engine is unchanged at
the end. -/
theorem deterministic_no_state_leak (m : Method) (data : List Nat) (hd : IsBytes data) :
    (∀ (self after : CRC16Calculator) (v : Nat),
        (m.call data).run self = some (v, after) →
          after.table = self.table ∧ after.revTable = self.revTable) ∧
      (∀ (self s1 s2 : CRC16Calculator) (between : List (Method × List Nat)) (v : Nat)
          (rs : List Nat),
        (m.call data).run self = some (v, s1) →
          (runCalls between).run s1 = some (rs, s2) →
            (m.call data).run s2 = some (v, s2) ∧ s2 = self) ∧
      ∃ v, (m.call data).run CRC16Calculator.new = some (v, CRC16Calculator.new) ∧
        ∀ before between : List (Method × List Nat),
          (∀ c ∈ before, IsBytes c.2) → (∀ c ∈ between, IsBytes c.2) →
            ∃ rb rm, rb.length = before.length ∧ rm.length = between.length ∧
              (runCalls (before ++ (m, data) :: (between ++ [(m, data)]))).run
                  CRC16Calculator.new =
                some (rb ++ v :: (rm ++ [v]), CRC16Calculator.new) := by
  refine ⟨?_, ?_, ?_⟩
  · intro self after v h
    rw [call_frame m data h]
    exact ⟨rfl, rfl⟩
  · intro self s1 s2 between v rs h1 h2
    have e1 : s1 = self := call_frame m data h1
    have e2 : s2 = s1 := runCalls_frame between h2
    rw [e2, e1]
    exact ⟨h1 ▸ (e1 ▸ rfl), rfl⟩
  · obtain ⟨v, hv⟩ := call_new m data hd
    refine ⟨v, hv, ?_⟩
    intro before between hb hm
    obtain ⟨rb, hlb, hrb⟩ := runCalls_new before hb
    obtain ⟨rm, hlm, hrm⟩ := runCalls_new between hm
    have hlast : (runCalls [(m, data)]).run CRC16Calculator.new =
        some ([v], CRC16Calculator.new) := by
      rw [runCalls_cons_run, hv]
      rfl
    have hmid : (runCalls ((m, data) :: (between ++ [(m, data)]))).run CRC16Calculator.new =
        some (v :: (rm ++ [v]), CRC16Calculator.new) := by
      rw [runCalls_cons_run, hv]
      simp only [Option.some_bind]
      rw [runCalls_append_run between [(m, data)] hrm hlast]
      rfl
    exact ⟨rb, rm, hlb, hlm, runCalls_append_run before _ hrb hmid⟩

theorem deterministic_no_state_leak_witness :
    IsBytes [0x31, 0x32, 0x33] ∧
      ((∀ (self after : CRC16Calculator) (v : Nat),
          (Method.mirrorTable.call [0x31, 0x32, 0x33]).run self = some (v, after) →
            after.table = self.table ∧ after.revTable = self.revTable) ∧
        (∀ (self s1 s2 : CRC16Calculator) (between : List (Method × List Nat)) (v : Nat)
            (rs : List Nat),
          (Method.mirrorTable.call [0x31, 0x32, 0x33]).run self = some (v, s1) →
            (runCalls between).run s1 = some (rs, s2) →
              (Method.mirrorTable.call [0x31, 0x32, 0x33]).run s2 = some (v, s2) ∧ s2 = self) ∧
        ∃ v, (Method.mirrorTable.call [0x31, 0x32, 0x33]).run CRC16Calculator.new =
            some (v, CRC16Calculator.new) ∧
          ∀ before between : List (Method × List Nat),
            (∀ c ∈ before, IsBytes c.2) → (∀ c ∈ between, IsBytes c.2) →
              ∃ rb rm, rb.length = before.length ∧ rm.length = between.length ∧
                (runCalls (before ++ (Method.mirrorTable, [0x31, 0x32, 0x33]) ::
                    (between ++ [(Method.mirrorTable, [0x31, 0x32, 0x33])]))).run
                    CRC16Calculator.new =
                  some (rb ++ v :: (rm ++ [v]), CRC16Calculator.new)) :=
  ⟨by decide, deterministic_no_state_leak Method.mirrorTable [0x31, 0x32, 0x33] (by decide)⟩

/-! ## Direct/reflected duality -/

theorem reverse16_xor (a b : Nat) : reverse16 (a ^^^ b) = reverse16 a ^^^ reverse16 b := by
  apply Nat.eq_of_testBit_eq; intro k
  simp only [reverse16_testBit, Nat.testBit_xor]
  cases decide (k < 16) <;> simp

theorem reverse16_u16 (x : Nat) : reverse16 (u16 x) = reverse16 x := by
  apply Nat.eq_of_testBit_eq; intro k
  simp only [reverse16_testBit, testBit_u16]
  rcases Nat.lt_or_ge k 16 with h | h
  · have l : 15 - k < 16 := by omega
    simp [h, l]
  · simp [Nat.not_lt.2 h]

/-- Reversal turns a truncated left shift into a right shift. -/
theorem reverse16_shiftLeft (c : Nat) : reverse16 (u16 (c <<< 1)) = u16 (reverse16 c >>> 1) := by
  apply Nat.eq_of_testBit_eq; intro k
  simp only [reverse16_testBit, testBit_u16, Nat.testBit_shiftLeft, Nat.testBit_shiftRight]
  rcases Nat.lt_or_ge k 15 with h | h
  · have h16 : k < 16 := by omega
    have l1 : 15 - k < 16 := by omega
    have l2 : 15 - k ≥ 1 := by omega
    have l3 : 1 + k < 16 := by omega
    have e : 15 - (1 + k) = 15 - k - 1 := by omega
    simp [h16, l1, l2, l3, e]
  · rcases Nat.lt_or_ge k 16 with h16 | h16
    · have hk : k = 15 := by omega
      subst hk
      simp
    · simp [Nat.not_lt.2 h16]

/-- One direct step seen through the reversal is one reflected step. -/
theorem reverse16_directStep (c : Nat) : reverse16 (directStep c) = mirrorStep (reverse16 c) := by
  have h0 : (reverse16 c).testBit 0 = c.testBit 15 := by
    rw [reverse16_testBit]; simp
  rw [directStep_eq, mirrorStep_eq, reverse16_xor, reverse16_shiftLeft, h0]
  cases c.testBit 15
  · rfl
  · rfl

theorem reverse16_directLoop (n c : Nat) :
    reverse16 (directLoop n c) = mirrorLoop n (reverse16 c) := by
  induction n generalizing c with
  | zero => rfl
  | succ n ih => simp only [directLoop, mirrorLoop, ih, reverse16_directStep]

theorem reverse16_high_reverseByte : ∀ b < 256, reverse16 (reverseByte b <<< 8) = b := by
  decide!

theorem reverse16_simpleSequentialByte (crc : Nat) {b : Nat} (hb : b < 256) :
    reverse16 (simpleSequentialByte crc (reverseByte b)) =
      mirrorSequentialByte (reverse16 crc) b := by
  simp only [simpleSequentialByte, mirrorSequentialByte]
  rw [reverse16_directLoop, reverse16_u16, reverse16_xor, reverse16_high_reverseByte b hb,
    u16_of_lt (xor_lt_65536 (reverse16_lt crc) (lt_trans hb (by decide)))]

theorem reverse16_foldl (data : List Nat) (hd : IsBytes data) (crc : Nat) :
    reverse16 ((data.map reverseByte).foldl simpleSequentialByte crc) =
      data.foldl mirrorSequentialByte (reverse16 crc) := by
  induction data generalizing crc with
  | nil => rfl
  | cons b bs ih =>
    rw [List.map_cons, List.foldl_cons, List.foldl_cons,
      ih (fun x hx => hd x (List.mem_cons_of_mem b hx)),
      reverse16_simpleSequentialByte crc (hd b (List.mem_cons_self b bs))]

/-- Claim C15. Direct/reflected duality: for every byte sequence the reflected
bit-serial checksum is the 16-bit bit-reversal of the direct bit-serial checksum
of the sequence with every byte bit-reversed. -/
theorem direct_reflected_duality (data : List Nat) (hd : IsBytes data) :
    mirrorSequential data = reverse16 (simpleSequential (data.map reverseByte)) :=
  (reverse16_foldl data hd 0).symm

theorem direct_reflected_duality_witness :
    IsBytes [0x31, 0x32, 0x33] ∧
      mirrorSequential [0x31, 0x32, 0x33] =
        reverse16 (simpleSequential ([0x31, 0x32, 0x33].map reverseByte)) :=
  ⟨by decide, direct_reflected_duality [0x31, 0x32, 0x33] (by decide)⟩

/-! ## Single-bit errors -/

theorem xor_eq_zero {a b : Nat} (h : a ^^^ b = 0) : a = b := by
  have h2 : a ^^^ b = a ^^^ a := by rw [h, Nat.xor_self]
  exact (Nat.xor_right_inj.1 h2).symm

/-- On 16-bit values only 0 is sent to 0 by the reflected loop body. -/
theorem mirrorStep_eq_zero {c : Nat} (hc : c < 65536) (h : mirrorStep c = 0) : c = 0 := by
  rw [mirrorStep_eq] at h
  have hs : c >>> 1 < 32768 := by rw [Nat.shiftRight_eq_div_pow]; omega
  have hu : u16 (c >>> 1) = c >>> 1 := u16_of_lt (by omega)
  rw [hu] at h
  by_cases hb : c.testBit 0 = true
  · rw [if_pos hb] at h
    have := xor_eq_zero h
    rw [this] at hs
    exact absurd hs (by decide)
  · rw [if_neg hb, Nat.xor_zero, Nat.shiftRight_eq_div_pow] at h
    rw [Nat.testBit_zero] at hb
    simp only [decide_eq_true_eq] at hb
    omega

theorem mirrorStep_inj {a b : Nat} (ha : a < 65536) (hb : b < 65536)
    (h : mirrorStep a = mirrorStep b) : a = b := by
  have hx : mirrorStep (a ^^^ b) = 0 := by rw [mirrorStep_xor, h, Nat.xor_self]
  exact xor_eq_zero (mirrorStep_eq_zero (xor_lt_65536 ha hb) hx)

theorem mirrorLoop_inj (n : Nat) {a b : Nat} (ha : a < 65536) (hb : b < 65536)
    (h : mirrorLoop n a = mirrorLoop n b) : a = b := by
  induction n generalizing a b with
  | zero => exact h
  | succ n ih => exact mirrorStep_inj ha hb (ih (mirrorStep_lt a) (mirrorStep_lt b) h)

/-- The loop body of `mirrorSequential` is injective in the register. -/
theorem mirrorSequentialByte_inj {c e b : Nat} (hc : c < 65536) (he : e < 65536)
    (hb : b < 65536) (h : mirrorSequentialByte c b = mirrorSequentialByte e b) : c = e := by
  simp only [mirrorSequentialByte] at h
  have h1 := mirrorLoop_inj 8 (u16_lt _) (u16_lt _) h
  rw [u16_of_lt (xor_lt_65536 hc hb), u16_of_lt (xor_lt_65536 he hb),
    Nat.xor_comm c b, Nat.xor_comm e b] at h1
  exact Nat.xor_right_inj.1 h1

theorem foldl_mirrorSequentialByte_inj (data : List Nat) (hd : IsBytes data) {c e : Nat}
    (hc : c < 65536) (he : e < 65536)
    (h : data.foldl mirrorSequentialByte c = data.foldl mirrorSequentialByte e) : c = e := by
  induction data generalizing c e with
  | nil => exact h
  | cons b bs ih =>
    have hb : b < 65536 := lt_trans (hd b (List.mem_cons_self b bs)) (by decide)
    exact mirrorSequentialByte_inj hc he hb
      (ih (fun x hx => hd x (List.mem_cons_of_mem b hx)) (mirrorSequentialByte_lt c b)
        (mirrorSequentialByte_lt e b) h)

/-- Two buffers with a common front part and a common rear part and different
bytes in between have different reflected checksums. -/
theorem mirrorSequential_ne (pre suf : List Nat) {x y : Nat} (hs : IsBytes suf)
    (hx : x < 256) (hy : y < 256) (hxy : x ≠ y) :
    mirrorSequential (pre ++ x :: suf) ≠ mirrorSequential (pre ++ y :: suf) := by
  intro h
  simp only [mirrorSequential, List.foldl_append, List.foldl_cons] at h
  have h1 := foldl_mirrorSequentialByte_inj suf hs (mirrorSequentialByte_lt _ x)
    (mirrorSequentialByte_lt _ y) h
  simp only [mirrorSequentialByte] at h1
  have hp := foldl_mirrorSequentialByte_lt pre (show (0 : Nat) < 65536 by decide)
  have h2 := mirrorLoop_inj 8 (u16_lt _) (u16_lt _) h1
  rw [u16_of_lt (xor_lt_65536 hp (lt_trans hx (by decide))),
    u16_of_lt (xor_lt_65536 hp (lt_trans hy (by decide)))] at h2
  exact hxy (Nat.xor_right_inj.1 h2)

/-- Buffers that agree everywhere except at position `i` split into a common
front part, the two bytes at `i`, and a common rear part. -/
theorem split_at_difference (a b : List Nat) (hl : a.length = b.length) (i : Nat)
    (hi : i < a.length) (hk : ∀ k < a.length, k ≠ i → a.getD k 0 = b.getD k 0) :
    a = a.take i ++ a.getD i 0 :: a.drop (i + 1) ∧
      b = a.take i ++ b.getD i 0 :: a.drop (i + 1) := by
  induction a generalizing b i with
  | nil => simp at hi
  | cons x xs ih =>
    cases b with
    | nil => simp at hl
    | cons y ys =>
      have hl2 : xs.length = ys.length := by simpa using hl
      cases i with
      | zero =>
        refine ⟨by simp, ?_⟩
        have : xs = ys := by
          apply List.ext_getElem hl2
          intro n h1 h2
          have h3 := hk (n + 1) (by simpa using h1) (by omega)
          rw [List.getD_cons_succ, List.getD_cons_succ, List.getD_eq_getElem _ _ h1,
            List.getD_eq_getElem _ _ h2] at h3
          exact h3
        simp [this]
      | succ i =>
        have hi2 : i < xs.length := by simpa using hi
        have h0 : x = y := by simpa using hk 0 (by simp) (by omega)
        have hk2 : ∀ k < xs.length, k ≠ i → xs.getD k 0 = ys.getD k 0 := by
          intro k hk1 hk3
          have := hk (k + 1) (by simpa using hk1) (by omega)
          simpa [List.getD_cons_succ] using this
        obtain ⟨e1, e2⟩ := ih ys hl2 i hi2 hk2
        refine ⟨?_, ?_⟩
        · simp only [List.take_succ_cons, List.drop_succ_cons, List.getD_cons_succ,
            List.cons_append]
          exact congrArg _ e1
        · simp only [List.take_succ_cons, List.drop_succ_cons, List.getD_cons_succ,
            List.cons_append]
          rw [← h0]
          exact congrArg _ e2

theorem getD_lt_of_isBytes {a : List Nat} (ha : IsBytes a) (i : Nat) : a.getD i 0 < 256 := by
  rcases Nat.lt_or_ge i a.length with h | h
  · rw [List.getD_eq_getElem _ _ h]
    exact ha _ (List.getElem_mem h)
  · rw [List.getD_eq_default _ _ h]; decide

/-- Claim C16. Single-bit error detection: two byte sequences of the same length
that differ in exactly one bit of exactly one byte have different standardized
CRC-16/ARC checksums (both calls return a value, and the two values differ). -/
theorem single_bit_error_detected (a b : List Nat) (ha : IsBytes a) (hb : IsBytes b)
    (h : DifferInOneBit a b) :
    standardCRC16_ARC CRC16Calculator.new a ≠ standardCRC16_ARC CRC16Calculator.new b ∧
      (standardCRC16_ARC CRC16Calculator.new a).isSome = true ∧
      (standardCRC16_ARC CRC16Calculator.new b).isSome = true := by
  obtain ⟨hl, i, hi, j, _, hx, hk⟩ := h
  rw [standardCRC16_ARC_new a ha, standardCRC16_ARC_new b hb]
  refine ⟨?_, rfl, rfl⟩
  obtain ⟨ea, eb⟩ := split_at_difference a b hl i hi hk
  have hne : a.getD i 0 ≠ b.getD i 0 := by
    intro he
    rw [he, Nat.xor_self] at hx
    exact absurd hx.symm (Nat.pos_iff_ne_zero.1 (Nat.two_pow_pos j))
  have hs : IsBytes (a.drop (i + 1)) := fun v hv => ha v (List.mem_of_mem_drop hv)
  have := mirrorSequential_ne (a.take i) (a.drop (i + 1)) hs (getD_lt_of_isBytes ha i)
    (getD_lt_of_isBytes hb i) hne
  rw [← ea, ← eb] at this
  exact fun he => this (Option.some.inj he)

theorem single_bit_error_detected_witness :
    (IsBytes [0x31, 0x32, 0x33] ∧ IsBytes [0x31, 0x12, 0x33] ∧
        DifferInOneBit [0x31, 0x32, 0x33] [0x31, 0x12, 0x33]) ∧
      (standardCRC16_ARC CRC16Calculator.new [0x31, 0x32, 0x33] ≠
          standardCRC16_ARC CRC16Calculator.new [0x31, 0x12, 0x33] ∧
        (standardCRC16_ARC CRC16Calculator.new [0x31, 0x32, 0x33]).isSome = true ∧
        (standardCRC16_ARC CRC16Calculator.new [0x31, 0x12, 0x33]).isSome = true) :=
  ⟨⟨by decide, by decide, by decide⟩,
    single_bit_error_detected [0x31, 0x32, 0x33] [0x31, 0x12, 0x33] (by decide) (by decide)
      (by decide)⟩

/-! ## Appending the checksum -/

/-- Feeding the high byte of the register to the direct loop leaves the low
byte, moved up. -/
theorem simpleSequentialByte_high (c : Nat) :
    simpleSequentialByte c (c >>> 8) = (c &&& 0xFF) <<< 8 := by
  have h0 : u8 0 <<< 8 = 0 := by decide
  simp only [simpleSequentialByte]
  rw [direct_split, Nat.xor_self, h0, Nat.zero_xor, directLoop_low _ (u8_lt c), and_255]
  rfl

/-- Feeding its own high byte to a register whose low byte is clear gives 0. -/
theorem simpleSequentialByte_self (l : Nat) : simpleSequentialByte (l <<< 8) l = 0 := by
  simp only [simpleSequentialByte]
  rw [Nat.xor_self]
  decide

/-- Feeding the low byte of the register to the reflected loop leaves the high
byte, moved down. -/
theorem mirrorSequentialByte_low {r : Nat} (hr : r < 65536) :
    mirrorSequentialByte r (r &&& 0xFF) = r >>> 8 := by
  have hb : r &&& 0xFF < 256 := by rw [and_255]; omega
  have hz : u8 ((r ^^^ (r &&& 0xFF)) &&& 0xFF) = 0 := by
    rw [Nat.and_xor_distrib_right, and_255, and_255, Nat.mod_mod, Nat.xor_self]
    rfl
  simp only [mirrorSequentialByte]
  rw [mirror_split hr hb, hz, Nat.xor_zero, mirrorLoop_high _ (shiftRight_8_lt hr)]

/-- Feeding a byte equal to the whole register to the reflected loop gives 0. -/
theorem mirrorSequentialByte_self (h : Nat) : mirrorSequentialByte h h = 0 := by
  simp only [mirrorSequentialByte]
  rw [Nat.xor_self]
  decide

/-- Claim C17. Zero residue after appending the checksum: with `c` the direct
bit-serial checksum of a byte sequence, the direct checksum of the sequence
extended by `c >> 8` and then `c & 0xFF` is 0; with `r` its reflected bit-serial
checksum, the reflected checksum of the sequence extended by `r & 0xFF` and then
`r >> 8` is 0.  Both appended values are bytes. -/
theorem zero_residue (data : List Nat) (_hd : IsBytes data) :
    simpleSequential
        (data ++ [simpleSequential data >>> 8, simpleSequential data &&& 0xFF]) = 0 ∧
      mirrorSequential
        (data ++ [mirrorSequential data &&& 0xFF, mirrorSequential data >>> 8]) = 0 ∧
      IsBytes [simpleSequential data >>> 8, simpleSequential data &&& 0xFF] ∧
      IsBytes [mirrorSequential data &&& 0xFF, mirrorSequential data >>> 8] := by
  have hc := simpleSequential_lt data
  have hr := mirrorSequential_lt data
  refine ⟨?_, ?_, ?_, ?_⟩
  · show List.foldl simpleSequentialByte 0 _ = 0
    rw [List.foldl_append, List.foldl_cons, List.foldl_cons, List.foldl_nil]
    show simpleSequentialByte (simpleSequentialByte (simpleSequential data) _) _ = 0
    rw [simpleSequentialByte_high, simpleSequentialByte_self]
  · show List.foldl mirrorSequentialByte 0 _ = 0
    rw [List.foldl_append, List.foldl_cons, List.foldl_cons, List.foldl_nil]
    show mirrorSequentialByte (mirrorSequentialByte (mirrorSequential data) _) _ = 0
    rw [mirrorSequentialByte_low hr, mirrorSequentialByte_self]
  · intro b hb
    simp only [List.mem_cons, List.mem_singleton, List.not_mem_nil, or_false] at hb
    rcases hb with rfl | rfl
    · exact shiftRight_8_lt hc
    · rw [and_255]; omega
  · intro b hb
    simp only [List.mem_cons, List.mem_singleton, List.not_mem_nil, or_false] at hb
    rcases hb with rfl | rfl
    · rw [and_255]; omega
    · exact shiftRight_8_lt hr

theorem zero_residue_witness :
    IsBytes [0x31, 0x32, 0x33] ∧
      (simpleSequential ([0x31, 0x32, 0x33] ++
          [simpleSequential [0x31, 0x32, 0x33] >>> 8,
            simpleSequential [0x31, 0x32, 0x33] &&& 0xFF]) = 0 ∧
        mirrorSequential ([0x31, 0x32, 0x33] ++
          [mirrorSequential [0x31, 0x32, 0x33] &&& 0xFF,
            mirrorSequential [0x31, 0x32, 0x33] >>> 8]) = 0 ∧
        IsBytes [simpleSequential [0x31, 0x32, 0x33] >>> 8,
          simpleSequential [0x31, 0x32, 0x33] &&& 0xFF] ∧
        IsBytes [mirrorSequential [0x31, 0x32, 0x33] &&& 0xFF,
          mirrorSequential [0x31, 0x32, 0x33] >>> 8]) :=
  ⟨by decide, zero_residue [0x31, 0x32, 0x33] (by decide)⟩

/-! ## Leading zero bytes -/

theorem foldl_simpleSequentialByte_zeros (n : Nat) :
    (List.replicate n 0).foldl simpleSequentialByte 0 = 0 := by
  induction n with
  | zero => rfl
  | succ n ih =>
    rw [List.replicate_succ, List.foldl_cons, show simpleSequentialByte 0 0 = 0 by decide]
    exact ih

theorem foldl_mirrorSequentialByte_zeros (n : Nat) :
    (List.replicate n 0).foldl mirrorSequentialByte 0 = 0 := by
  induction n with
  | zero => rfl
  | succ n ih =>
    rw [List.replicate_succ, List.foldl_cons, show mirrorSequentialByte 0 0 = 0 by decide]
    exact ih

theorem simpleSequential_zeros_append (n : Nat) (data : List Nat) :
    simpleSequential (List.replicate n 0 ++ data) = simpleSequential data := by
  show List.foldl simpleSequentialByte 0 _ = List.foldl simpleSequentialByte 0 _
  rw [List.foldl_append, foldl_simpleSequentialByte_zeros]

theorem mirrorSequential_zeros_append (n : Nat) (data : List Nat) :
    mirrorSequential (List.replicate n 0 ++ data) = mirrorSequential data := by
  show List.foldl mirrorSequentialByte 0 _ = List.foldl mirrorSequentialByte 0 _
  rw [List.foldl_append, foldl_mirrorSequentialByte_zeros]

theorem isBytes_zeros_append (n : Nat) {data : List Nat} (hd : IsBytes data) :
    IsBytes (List.replicate n 0 ++ data) := by
  intro b hb
  rcases List.mem_append.1 hb with h | h
  · rw [(List.mem_replicate.1 h).2]; decide
  · exact hd b h

/-- Claim C19. Leading zero bytes are invisible: for every byte sequence `data`
and every `n`, each of the five checksum methods returns on `n` zero bytes
followed by `data` what it returns on `data`; and on `n` zero bytes alone each
of them returns 0. -/
theorem leading_zeros_invisible (data : List Nat) (n : Nat) (hd : IsBytes data) :
    (simpleSequential (List.replicate n 0 ++ data) = simpleSequential data ∧
        tableAlgorithm CRC16Calculator.new (List.replicate n 0 ++ data) =
          tableAlgorithm CRC16Calculator.new data ∧
        mirrorSequential (List.replicate n 0 ++ data) = mirrorSequential data ∧
        mirrorTable CRC16Calculator.new (List.replicate n 0 ++ data) =
          mirrorTable CRC16Calculator.new data ∧
        standardCRC16_ARC CRC16Calculator.new (List.replicate n 0 ++ data) =
          standardCRC16_ARC CRC16Calculator.new data) ∧
      (simpleSequential (List.replicate n 0) = 0 ∧
        tableAlgorithm CRC16Calculator.new (List.replicate n 0) = some 0 ∧
        mirrorSequential (List.replicate n 0) = 0 ∧
        mirrorTable CRC16Calculator.new (List.replicate n 0) = some 0 ∧
        standardCRC16_ARC CRC16Calculator.new (List.replicate n 0) = some 0) := by
  have hz : IsBytes (List.replicate n 0 ++ data) := isBytes_zeros_append n hd
  have hn : IsBytes (List.replicate n 0) := by
    have h := @isBytes_zeros_append n [] (fun _ h => absurd h (List.not_mem_nil _))
    rwa [List.append_nil] at h
  have hs : simpleSequential (List.replicate n 0) = 0 := foldl_simpleSequentialByte_zeros n
  have hm : mirrorSequential (List.replicate n 0) = 0 := foldl_mirrorSequentialByte_zeros n
  refine ⟨⟨simpleSequential_zeros_append n data, ?_, mirrorSequential_zeros_append n data, ?_, ?_⟩,
    hs, ?_, hm, ?_, ?_⟩
  · rw [tableAlgorithm_new, tableAlgorithm_new, simpleSequential_zeros_append]
  · rw [mirrorTable_new _ hz, mirrorTable_new _ hd, mirrorSequential_zeros_append]
  · rw [standardCRC16_ARC_new _ hz, standardCRC16_ARC_new _ hd, mirrorSequential_zeros_append]
  · rw [tableAlgorithm_new, hs]
  · rw [mirrorTable_new _ hn, hm]
  · rw [standardCRC16_ARC_new _ hn, hm]

theorem leading_zeros_invisible_witness :
    IsBytes [0x31, 0x00, 0xFF] ∧
      ((simpleSequential (List.replicate 3 0 ++ [0x31, 0x00, 0xFF]) =
            simpleSequential [0x31, 0x00, 0xFF] ∧
          tableAlgorithm CRC16Calculator.new (List.replicate 3 0 ++ [0x31, 0x00, 0xFF]) =
            tableAlgorithm CRC16Calculator.new [0x31, 0x00, 0xFF] ∧
          mirrorSequential (List.replicate 3 0 ++ [0x31, 0x00, 0xFF]) =
            mirrorSequential [0x31, 0x00, 0xFF] ∧
          mirrorTable CRC16Calculator.new (List.replicate 3 0 ++ [0x31, 0x00, 0xFF]) =
            mirrorTable CRC16Calculator.new [0x31, 0x00, 0xFF] ∧
          standardCRC16_ARC CRC16Calculator.new (List.replicate 3 0 ++ [0x31, 0x00, 0xFF]) =
            standardCRC16_ARC CRC16Calculator.new [0x31, 0x00, 0xFF]) ∧
        (simpleSequential (List.replicate 3 0) = 0 ∧
          tableAlgorithm CRC16Calculator.new (List.replicate 3 0) = some 0 ∧
          mirrorSequential (List.replicate 3 0) = 0 ∧
          mirrorTable CRC16Calculator.new (List.replicate 3 0) = some 0 ∧
          standardCRC16_ARC CRC16Calculator.new (List.replicate 3 0) = some 0)) :=
  ⟨by decide, leading_zeros_invisible [0x31, 0x00, 0xFF] 3 (by decide)⟩

end Crc16
